import Mathlib

/-!
Shallow embedding of the core of `src/sweden-energy-price-planner.js`:
the fee normalizer (`applyUserFees`), the price-series builder
(`parsePriceData`), the retrying fetch (`fetchPrices`), the cached fetch
pipeline (`checkCacheAndFetchPrices`), the orchestrator's availability
filter (from `handleCalculate`), and the greedy slot selector
(`findTopBestTimeSlots`).

Conventions of the embedding:
* JS numbers are embedded as `ℚ` (prices) or `Int` (epoch milliseconds);
  `Date` values are their epoch-millisecond value, with the local-time
  offset (minutes east of UTC) passed explicitly where the code uses
  local-time accessors such as `getHours`.
* `async` functions are embedded as pure functions over an explicit
  oracle of per-attempt network responses; `await`ed delays are recorded
  in the result instead of being performed.
* `localStorage` is embedded as an explicit `Option CacheEntry` value
  threaded in and out of `checkCacheAndFetchPrices`.
-/

/-- Raw record from the remote price source: `{time_start, SEK_per_kWh}`.
The ISO-8601 `time_start` string is represented by its parsed epoch value. -/
structure RawPricePeriod where
  time_start : Int
  SEK_per_kWh : ℚ
deriving Repr, DecidableEq, Inhabited

/-- The user-fee record `{gridFee, energyTax, vat}` built in `handleCalculate`. -/
structure UserFees where
  gridFee : ℚ
  energyTax : ℚ
  vat : ℚ
deriving Repr, DecidableEq, Inhabited

/-- Annotated period produced by `parsePriceData`. -/
structure PricedPeriod where
  id : Int
  timestamp : Int
  base_price : ℚ
  calculated_price : ℚ
  isPast : Bool
  dayTag : String
  available : Bool
deriving Repr, DecidableEq, Inhabited

/-- Result slot produced by `findTopBestTimeSlots`. -/
structure Slot where
  rank : ℕ
  startTime : Int
  endTime : Int
  averagePrice : ℚ
  totalCost : ℚ
  periods : List PricedPeriod
deriving Repr, DecidableEq, Inhabited

/-- Embedding of `applyUserFees(basePrice, vat, energyTax, gridFee)`:
`(basePrice + (energyTax + gridFee)) * (1 + vat / 100)`.
Polymorphic over the number field; the series builder instantiates it at `ℚ`. -/
def applyUserFees {α : Type} [Field α] (basePrice vat energyTax gridFee : α) : α :=
  let totalFixedFee := energyTax + gridFee
  let priceBeforeVAT := basePrice + totalFixedFee
  let finalPrice := priceBeforeVAT * (1 + vat / 100)
  finalPrice

/-- The per-item body of the `map` in `parsePriceData`: builds one annotated
period from a raw record. `dayTagOf` abstracts `toLocaleDateString`, and
`nowTime` is the `Date.now` value read at the start of `parsePriceData`. -/
def toPricedPeriod (dayTagOf : Int → String) (nowTime : Int) (userFees : UserFees)
    (item : RawPricePeriod) : PricedPeriod :=
  let timestamp := item.time_start
  let finalPrice := applyUserFees item.SEK_per_kWh userFees.vat userFees.energyTax userFees.gridFee
  { id := timestamp
    timestamp := timestamp
    base_price := item.SEK_per_kWh
    calculated_price := finalPrice
    isPast := decide (timestamp < nowTime)
    dayTag := dayTagOf timestamp
    available := true }

/-- Embedding of `parsePriceData(rawData, userFees)`. A `none` input models a
non-array `rawData` (the `!Array.isArray(rawData)` test). The map result is
sorted ascending by timestamp (`.sort((a, b) => a.timestamp - b.timestamp)`,
embedded as a stable merge sort with the `≤` comparator). -/
def parsePriceData (dayTagOf : Int → String) (nowTime : Int)
    (rawData : Option (List RawPricePeriod)) (userFees : UserFees) : List PricedPeriod :=
  match rawData with
  | none => []
  | some l =>
    if l.length = 0 then []
    else
      (l.map (toPricedPeriod dayTagOf nowTime userFees)).mergeSort
        (fun a b => a.timestamp ≤ b.timestamp)

/-- Outcome of one attempted network request inside `fetchPrices`. -/
inductive FetchResponse where
  /-- `response.status === 404`. -/
  | notFound : FetchResponse
  /-- `response.ok` with the parsed JSON body. -/
  | ok (rawData : List RawPricePeriod) : FetchResponse
  /-- Any other HTTP status (the code throws and lands in the `catch`). -/
  | httpError (status : ℕ) : FetchResponse
  /-- `fetch` itself rejected (network error); also lands in the `catch`. -/
  | networkError : FetchResponse
deriving Repr, DecidableEq

/-- Responses that take the `catch` path of `fetchPrices` (anything that is
neither a 404 nor an `ok` response). -/
def FetchResponse.isFailure : FetchResponse → Bool
  | .notFound => false
  | .ok _ => false
  | .httpError _ => true
  | .networkError => true

/-- Resolved value of `fetchPrices`, extended with the observable effects:
how many attempts were made and which backoff delays (ms) were awaited. -/
structure FetchOutcome where
  rawData : Option (List RawPricePeriod)
  status : String
  attemptsUsed : ℕ
  delaysMs : List ℕ
deriving Repr, DecidableEq

/-- The retry loop of `fetchPrices` from a given attempt index. `responses`
is the oracle giving each attempt's network outcome. -/
def fetchPricesFrom (responses : ℕ → FetchResponse) (dateStr : String)
    (maxRetries attempt : ℕ) : FetchOutcome :=
  if h : attempt < maxRetries then
    match responses attempt with
    | .notFound =>
      { rawData := none
        status := "Prices for " ++ dateStr ++ " not yet released (404)."
        attemptsUsed := attempt + 1
        delaysMs := [] }
    | .ok raw =>
      { rawData := some raw
        status := "Prices for " ++ dateStr ++ " successfully loaded (" ++
          toString raw.length ++ " periods)."
        attemptsUsed := attempt + 1
        delaysMs := [] }
    | _ =>
      if attempt = maxRetries - 1 then
        { rawData := none
          status := "Failed to load prices for " ++ dateStr ++ ". Network error."
          attemptsUsed := attempt + 1
          delaysMs := [] }
      else
        let rest := fetchPricesFrom responses dateStr maxRetries (attempt + 1)
        { rest with delaysMs := 2 ^ attempt * 1000 :: rest.delaysMs }
  else
    { rawData := none
      status := "Failed to load prices for " ++ dateStr ++ " after retries."
      attemptsUsed := attempt
      delaysMs := [] }
termination_by maxRetries - attempt

/-- Embedding of `fetchPrices(date, zone, maxRetries)`; the call sites use
`maxRetries = 3` (the JS default). -/
def fetchPrices (responses : ℕ → FetchResponse) (dateStr : String)
    (maxRetries : ℕ) : FetchOutcome :=
  fetchPricesFrom responses dateStr maxRetries 0

/-- Default retry ceiling of `fetchPrices` (`maxRetries = 3`). -/
def defaultMaxRetries : ℕ := 3

/-- Shape of the value stored under the `electricity_prices_cache` key.
`dateFetched` (an ISO `YYYY-MM-DD` string in the code) is represented by the
corresponding UTC day number, which the ISO date string determines uniquely. -/
structure CacheEntry where
  dateFetched : Int
  zone : String
  today : List RawPricePeriod
  tomorrow : List RawPricePeriod
deriving Repr, DecidableEq

/-- The `{rawData, status}` value resolved by one day's `fetchPrices` call. -/
structure FetchResult where
  rawData : Option (List RawPricePeriod)
  status : String
deriving Repr, DecidableEq

/-- Value returned by `checkCacheAndFetchPrices`. -/
structure PipelineResult where
  allRawPrices : List RawPricePeriod
  statusMessage : String
  isCached : Bool
deriving Repr, DecidableEq

/-- Day number of `date.toISOString().split("T")[0]`: `toISOString` renders
the UTC calendar date, i.e. the floor of the epoch value over a day. -/
def utcDayNumber (epochMs : Int) : Int :=
  Int.fdiv epochMs 86400000

/-- Calendar day number in local time for an offset of `offsetMin` minutes
east of UTC (what a local-date rendering of the same instant would give). -/
def localDayNumber (epochMs offsetMin : Int) : Int :=
  Int.fdiv (epochMs + offsetMin * 60000) 86400000

/-- The merge step shared by both paths of `checkCacheAndFetchPrices`:
concatenate and sort ascending by `time_start`. -/
def sortByTimeStart (l : List RawPricePeriod) : List RawPricePeriod :=
  l.mergeSort (fun a b => a.time_start ≤ b.time_start)

/-- The cache-validity test of `checkCacheAndFetchPrices`: the entry must
exist, match the requested zone, and its `dateFetched` must equal
`today.toISOString().split("T")[0]` for the current instant `nowMs`. -/
def cacheHit (cached : Option CacheEntry) (zone : String) (nowMs : Int) : Bool :=
  match cached with
  | none => false
  | some c => c.zone == zone && c.dateFetched == utcDayNumber nowMs

/-- Embedding of `checkCacheAndFetchPrices(zone)`. `cached` is the current
content of the cache store, `nowMs` the `new Date()` instant, and
`todayResult` / `tomorrowResult` the values the two `fetchPrices` calls would
resolve to on a miss. Returns the pipeline result together with the cache
store content after the call. -/
def checkCacheAndFetchPrices (cached : Option CacheEntry) (zone : String) (nowMs : Int)
    (todayResult tomorrowResult : FetchResult) : PipelineResult × Option CacheEntry :=
  if cacheHit cached zone nowMs then
    match cached with
    | some c =>
      ({ allRawPrices := sortByTimeStart (c.today ++ c.tomorrow)
         statusMessage := "Today: ✅ Cached. Tomorrow: ✅ Cached."
         isCached := true }, cached)
    | none =>
      -- unreachable: `cacheHit` is false on `none`
      ({ allRawPrices := [], statusMessage := "", isCached := false }, cached)
  else
    let todayRaw := todayResult.rawData.getD []
    let tomorrowRaw := tomorrowResult.rawData.getD []
    let allRawPrices := sortByTimeStart (todayRaw ++ tomorrowRaw)
    let statusMessage :=
      "Today: " ++ todayResult.status ++ " | Tomorrow: " ++ tomorrowResult.status
    if todayRaw.length > 0 && tomorrowRaw.length > 0 then
      ({ allRawPrices := allRawPrices
         statusMessage := statusMessage ++ " | Data successfully cached."
         isCached := false },
       some { dateFetched := utcDayNumber nowMs, zone := zone,
              today := todayRaw, tomorrow := tomorrowRaw })
    else
      ({ allRawPrices := allRawPrices
         statusMessage := statusMessage ++ " | Warning: Partial data. Not caching."
         isCached := false }, cached)

/-- JS `x || y` where `x` is an array: every array object is truthy, so the
left operand is returned and the right operand is never evaluated. -/
def jsOrArray (x y : List PricedPeriod) : List PricedPeriod :=
  x

/-- Local-time hour of an epoch instant (`timestamp.getHours()`), for an
offset of `offsetMin` minutes east of UTC. -/
def hourOfLocal (tsMs offsetMin : Int) : Int :=
  Int.emod (Int.fdiv (tsMs + offsetMin * 60000) 3600000) 24

/-- The filter callback written in `handleCalculate` step 3 (the right-hand
operand of the `||`): drop past periods and, unless the window is the full
`0-24` default, keep only periods whose local hour lies in
`[startHour, endHour)`. -/
def windowFilter (offsetMin : Int) (allPrices : List PricedPeriod)
    (startHour endHour : Int) : List PricedPeriod :=
  allPrices.filter fun p =>
    if p.isPast then false
    else if startHour ≠ 0 ∨ endHour ≠ 24 then
      decide (startHour ≤ hourOfLocal p.timestamp offsetMin ∧
        hourOfLocal p.timestamp offsetMin < endHour)
    else true

/-- Embedding of the `availablePrices` computation in `handleCalculate`:
`const availablePrices = allPrices || allPrices.filter(...)`. Since
`allPrices` is an array and hence truthy, the `||` short-circuits to it. -/
def availablePricesOf (offsetMin : Int) (allPrices : List PricedPeriod)
    (startHour endHour : Int) : List PricedPeriod :=
  jsOrArray allPrices (windowFilter offsetMin allPrices startHour endHour)

/-- A concrete past, out-of-window period (local hour 2 for offset +120). -/
def pastPeriodExample : PricedPeriod :=
  { id := 0, timestamp := 0, base_price := 1, calculated_price := 1,
    isPast := true, dayTag := "Jan 1", available := true }

/-- The available-index list of one selection round:
`workingPrices.map((p, index) => p.available ? index : -1).filter(i => i !== -1)`,
i.e. the indices of the currently available periods in ascending order. -/
def availableIndices (ps : List PricedPeriod) : List ℕ :=
  (List.range ps.length).filter fun i => (ps.getD i default).available

/-- The block `workingPrices.slice(s, e + 1)`. -/
def blockSlice (ps : List PricedPeriod) (s e : ℕ) : List PricedPeriod :=
  (ps.drop s).take (e + 1 - s)

/-- Cost of a block: `slice(s, e + 1).reduce((sum, p) => sum + p.calculated_price, 0)`. -/
def blockCost (ps : List PricedPeriod) (s e : ℕ) : ℚ :=
  (blockSlice ps s e).foldl (fun sum p => sum + p.calculated_price) 0

/-- One iteration of the inner candidate scan of `findTopBestTimeSlots`.
`best` is `none` while `cheapestCost` is still `Infinity`, otherwise
`some (cheapestCost, bestBlockStartIndex, bestBlockEndIndex)`. The window at
scan position `i` is a valid candidate only when its first and last original
indices differ by exactly `pn - 1`; a strictly cheaper candidate replaces the
current best. -/
def considerCandidate (ps : List PricedPeriod) (avail : List ℕ) (pn : ℕ)
    (best : Option (ℚ × ℕ × ℕ)) (i : ℕ) : Option (ℚ × ℕ × ℕ) :=
  let s := avail.getD i 0
  let e := avail.getD (i + pn - 1) 0
  if e - s = pn - 1 then
    let c := blockCost ps s e
    match best with
    | none => some (c, s, e)
    | some (bc, bs, be) => if c < bc then some (c, s, e) else some (bc, bs, be)
  else best

/-- The inner scan `for (i = 0; i <= availableIndices.length - periodsNeeded; i++)`. -/
def scanBest (ps : List PricedPeriod) (avail : List ℕ) (pn : ℕ) : Option (ℚ × ℕ × ℕ) :=
  (List.range (avail.length + 1 - pn)).foldl (considerCandidate ps avail pn) none

/-- One selection round: break (`none`) when fewer than `pn` periods remain
available, otherwise scan all windows for the cheapest valid block. -/
def selectRound (ps : List PricedPeriod) (pn : ℕ) : Option (ℚ × ℕ × ℕ) :=
  let avail := availableIndices ps
  if avail.length < pn then none
  else scanBest ps avail pn

/-- The marking loop `for (i = s; i <= e; i++) workingPrices[i].available = false`,
written as a structural recursion carrying the current index `i`. -/
def markUnavailableAux (s e i : ℕ) : List PricedPeriod → List PricedPeriod
  | [] => []
  | p :: rest =>
    (if s ≤ i ∧ i ≤ e then { p with available := false } else p) ::
      markUnavailableAux s e (i + 1) rest

/-- Mark the block `[s, e]` of the working array unavailable. -/
def markUnavailable (ps : List PricedPeriod) (s e : ℕ) : List PricedPeriod :=
  markUnavailableAux s e 0 ps

/-- The outer greedy loop `for (k = 0; k < numSlots; k++)` of
`findTopBestTimeSlots`: `remaining` counts the iterations still to run and
`k` is the current iteration index (so `rank = k + 1`). -/
def selectLoop (ps : List PricedPeriod) (pn k remaining : ℕ) : List Slot :=
  match remaining with
  | 0 => []
  | r + 1 =>
    match selectRound ps pn with
    | none => []
    | some (cost, s, e) =>
      let bestBlock := blockSlice ps s e
      let slot : Slot :=
        { rank := k + 1
          startTime := (bestBlock.headD default).timestamp
          endTime := (bestBlock.getLastD default).timestamp + 15 * 60000
          averagePrice := cost / pn
          totalCost := cost
          periods := bestBlock }
      slot :: selectLoop (markUnavailable ps s e) pn (k + 1) r

/-- Embedding of `findTopBestTimeSlots(availablePrices, hours, numSlots)`.
The deep copy re-creates the timestamps unchanged and resets every
`available` flag to `true`; `periodsNeeded = hours * 4` (an integer whenever
the caller respects the 15-minute divisibility contract). -/
def findTopBestTimeSlots (availablePrices : List PricedPeriod) (hours : ℚ)
    (numSlots : ℕ) : List Slot :=
  let periodsNeeded : ℕ := (⌊hours * 4⌋).toNat
  let workingPrices := availablePrices.map fun p => { p with available := true }
  selectLoop workingPrices periodsNeeded 0 numSlots

/-- A valid candidate block of one selection round, as described in the spec:
a run of `pn` original indices `s, …, e` with `e = s + (pn - 1)`, lying inside
the series, all currently available. -/
def isCandidate (ps : List PricedPeriod) (pn s e : ℕ) : Prop :=
  e = s + (pn - 1) ∧ e < ps.length ∧
    ∀ i ≤ e, s ≤ i → (ps.getD i default).available = true

instance (ps : List PricedPeriod) (pn s e : ℕ) : Decidable (isCandidate ps pn s e) := by
  unfold isCandidate
  infer_instance

instance : IsTrans Slot fun a b => a.totalCost ≤ b.totalCost :=
  ⟨fun _ _ _ => le_trans⟩

/-- Helper for concrete witness inputs: a future period at timestamp `ts`
whose all-in price is `price`. -/
def mkPeriod (ts : Int) (price : ℚ) : PricedPeriod :=
  { id := ts, timestamp := ts, base_price := price, calculated_price := price,
    isPast := false, dayTag := "d", available := true }

/-- Concrete two-period series used by witnesses. -/
def witnessSeries : List PricedPeriod :=
  [mkPeriod 0 2, mkPeriod 1 1]

/-- Concrete response oracle: every attempt resolves to HTTP 404. -/
def alwaysNotFound : ℕ → FetchResponse := fun _ => FetchResponse.notFound

/-- Concrete response oracle: every attempt rejects with a network error. -/
def alwaysNetworkError : ℕ → FetchResponse := fun _ => FetchResponse.networkError

/-- Concrete cache entry fetched on local calendar day 1 (UTC day 0 plus a
+120-minute offset at 23:00 UTC gives local day 1). -/
def midnightCacheEntry : CacheEntry :=
  { dateFetched := 1, zone := "SE4", today := [⟨0, 1⟩], tomorrow := [⟨86400000, 1⟩] }

/-- The instant 23:00 UTC on epoch day 0 (01:00 local time on day 1 at
offset +120 minutes). -/
def lateEveningMs : Int := 82800000

/-- Concrete successful today-fetch result used by witnesses. -/
def todayOkResult : FetchResult := ⟨some [⟨0, 1⟩], "ok"⟩

/-- Concrete 404 tomorrow-fetch result (`rawData = null`) used by witnesses. -/
def tomorrow404Result : FetchResult := ⟨none, "not yet released"⟩

/-! ### Properties of the marking loop -/

theorem length_markUnavailableAux (s e : ℕ) :
    ∀ (ps : List PricedPeriod) (i : ℕ), (markUnavailableAux s e i ps).length = ps.length := by
  intro ps
  induction ps with
  | nil => intro i; rfl
  | cons p rest ih => intro i; simp [markUnavailableAux, ih]

theorem length_markUnavailable (ps : List PricedPeriod) (s e : ℕ) :
    (markUnavailable ps s e).length = ps.length :=
  length_markUnavailableAux s e ps 0

theorem getD_markUnavailableAux (s e : ℕ) :
    ∀ (ps : List PricedPeriod) (i j : ℕ), j < ps.length →
      (markUnavailableAux s e i ps).getD j default =
        if s ≤ i + j ∧ i + j ≤ e then { ps.getD j default with available := false }
        else ps.getD j default := by
  intro ps
  induction ps with
  | nil => intro i j hj; simp at hj
  | cons p rest ih =>
    intro i j hj
    cases j with
    | zero => simp [markUnavailableAux]
    | succ j' =>
      have hj' : j' < rest.length := by simpa using hj
      have := ih (i + 1) j' hj'
      simp only [markUnavailableAux, List.getD_cons_succ]
      rw [this]
      have harith : i + 1 + j' = i + (j' + 1) := by omega
      rw [harith]

theorem getD_markUnavailable (ps : List PricedPeriod) (s e j : ℕ) (hj : j < ps.length) :
    (markUnavailable ps s e).getD j default =
      if s ≤ j ∧ j ≤ e then { ps.getD j default with available := false }
      else ps.getD j default := by
  have := getD_markUnavailableAux s e ps 0 j hj
  simpa using this

theorem markUnavailableAux_map {α : Type} (f : PricedPeriod → α)
    (hf : ∀ p, f { p with available := false } = f p) (s e : ℕ) :
    ∀ (ps : List PricedPeriod) (i : ℕ),
      (markUnavailableAux s e i ps).map f = ps.map f := by
  intro ps
  induction ps with
  | nil => intro i; rfl
  | cons p rest ih =>
    intro i
    simp only [markUnavailableAux, List.map_cons, ih (i + 1)]
    by_cases h : s ≤ i ∧ i ≤ e
    · rw [if_pos h, hf p]
    · rw [if_neg h]

theorem markUnavailable_map_timestamp (ps : List PricedPeriod) (s e : ℕ) :
    (markUnavailable ps s e).map (fun p => p.timestamp) = ps.map fun p => p.timestamp :=
  markUnavailableAux_map (fun p => p.timestamp) (fun _ => rfl) s e ps 0

theorem markUnavailable_map_price (ps : List PricedPeriod) (s e : ℕ) :
    (markUnavailable ps s e).map (fun p => p.calculated_price) =
      ps.map fun p => p.calculated_price :=
  markUnavailableAux_map (fun p => p.calculated_price) (fun _ => rfl) s e ps 0

theorem available_of_markUnavailable (ps : List PricedPeriod) (s e j : ℕ)
    (hj : j < ps.length)
    (h : ((markUnavailable ps s e).getD j default).available = true) :
    ¬(s ≤ j ∧ j ≤ e) ∧ (ps.getD j default).available = true := by
  rw [getD_markUnavailable ps s e j hj] at h
  by_cases hr : s ≤ j ∧ j ≤ e
  · rw [if_pos hr] at h
    exact absurd h (by simp)
  · rw [if_neg hr] at h
    exact ⟨hr, h⟩

theorem timestamp_markUnavailable (ps : List PricedPeriod) (s e j : ℕ)
    (hj : j < ps.length) :
    ((markUnavailable ps s e).getD j default).timestamp = (ps.getD j default).timestamp := by
  rw [getD_markUnavailable ps s e j hj]
  by_cases hr : s ≤ j ∧ j ≤ e
  · rw [if_pos hr]
  · rw [if_neg hr]

/-! ### Properties of block slices and costs -/

theorem foldl_add_price (l : List PricedPeriod) :
    ∀ a : ℚ, l.foldl (fun sum p => sum + p.calculated_price) a =
      a + (l.map fun p => p.calculated_price).sum := by
  induction l with
  | nil => intro a; simp
  | cons p rest ih =>
    intro a
    simp only [List.foldl_cons, List.map_cons, List.sum_cons, ih (a + p.calculated_price)]
    ring

theorem blockCost_eq_sum (ps : List PricedPeriod) (s e : ℕ) :
    blockCost ps s e =
      (((ps.map fun p => p.calculated_price).drop s).take (e + 1 - s)).sum := by
  unfold blockCost blockSlice
  rw [foldl_add_price]
  simp

theorem blockCost_markUnavailable (ps : List PricedPeriod) (a b s e : ℕ) :
    blockCost (markUnavailable ps a b) s e = blockCost ps s e := by
  rw [blockCost_eq_sum, blockCost_eq_sum, markUnavailable_map_price]

theorem mem_blockSlice (ps : List PricedPeriod) (s e : ℕ) (p : PricedPeriod)
    (hp : p ∈ blockSlice ps s e) :
    ∃ j, s ≤ j ∧ j ≤ e ∧ j < ps.length ∧ p = ps.getD j default := by
  unfold blockSlice at hp
  obtain ⟨idx, hidx, hget⟩ := List.mem_iff_getElem.mp hp
  have hidx_take : idx < e + 1 - s := by
    have := List.length_take (e + 1 - s) (ps.drop s)
    omega
  have hidx_drop : idx < (ps.drop s).length := by
    have := List.length_take (e + 1 - s) (ps.drop s)
    omega
  have hlen : s + idx < ps.length := by
    have := List.length_drop s ps
    omega
  refine ⟨s + idx, by omega, by omega, hlen, ?_⟩
  rw [List.getElem_take] at hget
  rw [List.getElem_drop] at hget
  rw [List.getD_eq_getElem _ _ hlen]
  exact hget.symm

/-! ### Properties of the available-index list -/

theorem mem_availableIndices (ps : List PricedPeriod) (i : ℕ) :
    i ∈ availableIndices ps ↔ i < ps.length ∧ (ps.getD i default).available = true := by
  unfold availableIndices
  rw [List.mem_filter, List.mem_range]

theorem sorted_availableIndices (ps : List PricedPeriod) :
    (availableIndices ps).Sorted (· < ·) :=
  (List.sorted_lt_range ps.length).filter _

theorem availableIndices_getD_lt (ps : List PricedPeriod) (a b : ℕ)
    (hab : a < b) (hb : b < (availableIndices ps).length) :
    (availableIndices ps).getD a 0 < (availableIndices ps).getD b 0 := by
  have ha : a < (availableIndices ps).length := lt_trans hab hb
  rw [List.getD_eq_get _ _ ha, List.getD_eq_get _ _ hb]
  exact (sorted_availableIndices ps).rel_get_of_lt hab

theorem availableIndices_getD_gap (ps : List PricedPeriod) (a : ℕ) :
    ∀ b, a ≤ b → b < (availableIndices ps).length →
      (availableIndices ps).getD a 0 + (b - a) ≤ (availableIndices ps).getD b 0 := by
  intro b
  induction b with
  | zero =>
    intro hab _
    have : a = 0 := Nat.le_zero.mp hab
    subst this
    simp
  | succ b ih =>
    intro hab hb
    by_cases hcase : a = b + 1
    · subst hcase; simp
    · have hab' : a ≤ b := by omega
      have hb' : b < (availableIndices ps).length := by omega
      have h1 := ih hab' hb'
      have h2 := availableIndices_getD_lt ps b (b + 1) (by omega) hb
      omega

theorem availableIndices_getD_le (ps : List PricedPeriod) (a b : ℕ)
    (hab : a ≤ b) (hb : b < (availableIndices ps).length) :
    (availableIndices ps).getD a 0 ≤ (availableIndices ps).getD b 0 := by
  have := availableIndices_getD_gap ps a b hab hb
  omega

theorem availableIndices_getD_mem (ps : List PricedPeriod) (b : ℕ)
    (hb : b < (availableIndices ps).length) :
    (availableIndices ps).getD b 0 ∈ availableIndices ps := by
  rw [List.getD_eq_getElem _ _ hb]
  exact List.getElem_mem hb

theorem exists_pos_of_candidate (ps : List PricedPeriod) (pn s e : ℕ)
    (hpn : 0 < pn) (hc : isCandidate ps pn s e) :
    ∃ pos, pos + pn ≤ (availableIndices ps).length ∧
      ∀ j, j < pn → (availableIndices ps).getD (pos + j) 0 = s + j := by
  obtain ⟨he, helen, hav⟩ := hc
  have hspn : s + pn ≤ ps.length := by omega
  -- decompose `range ps.length` around the candidate block `[s, s + pn)`
  have hsplit : List.range ps.length =
      List.range' 0 s ++ (List.range' s pn ++ List.range' (s + pn) (ps.length - (s + pn))) := by
    rw [List.range_eq_range']
    rw [List.range'_append_1 s pn (ps.length - (s + pn))]
    have h2 := List.range'_append_1 0 s (ps.length - (s + pn) + pn)
    simp only [Nat.zero_add] at h2
    rw [h2]
    congr 1
    omega
  have hmid : (List.range' s pn).filter (fun i => (ps.getD i default).available) =
      List.range' s pn := by
    rw [List.filter_eq_self]
    intro a ha
    rw [List.mem_range'_1] at ha
    exact hav a (by omega) (by omega)
  have havail : availableIndices ps =
      ((List.range' 0 s).filter fun i => (ps.getD i default).available) ++
        (List.range' s pn ++
          ((List.range' (s + pn) (ps.length - (s + pn))).filter
            fun i => (ps.getD i default).available)) := by
    unfold availableIndices
    rw [hsplit, List.filter_append, List.filter_append, hmid]
  set A := (List.range' 0 s).filter fun i => (ps.getD i default).available with hA
  refine ⟨A.length, ?_, ?_⟩
  · rw [havail]
    simp [List.length_append, List.length_range']
  · intro j hj
    rw [havail]
    rw [List.getD_append_right A _ 0 (A.length + j) (by omega)]
    have hjlen : A.length + j - A.length = j := by omega
    rw [hjlen]
    have hjmid : j < (List.range' s pn).length := by
      rw [List.length_range']; exact hj
    rw [List.getD_append _ _ 0 j hjmid]
    rw [List.getD_eq_getElem _ _ hjmid]
    simp

/-! ### The inner candidate scan -/

theorem considerCandidate_none (ps : List PricedPeriod) (avail : List ℕ) (pn i : ℕ) :
    considerCandidate ps avail pn none i =
      if avail.getD (i + pn - 1) 0 - avail.getD i 0 = pn - 1 then
        some (blockCost ps (avail.getD i 0) (avail.getD (i + pn - 1) 0),
          avail.getD i 0, avail.getD (i + pn - 1) 0)
      else none := by
  unfold considerCandidate
  by_cases h : avail.getD (i + pn - 1) 0 - avail.getD i 0 = pn - 1
  · rw [if_pos h]
  · rw [if_neg h]

theorem considerCandidate_some (ps : List PricedPeriod) (avail : List ℕ) (pn i : ℕ)
    (bc : ℚ) (bs be : ℕ) :
    considerCandidate ps avail pn (some (bc, bs, be)) i =
      if avail.getD (i + pn - 1) 0 - avail.getD i 0 = pn - 1 then
        if blockCost ps (avail.getD i 0) (avail.getD (i + pn - 1) 0) < bc then
          some (blockCost ps (avail.getD i 0) (avail.getD (i + pn - 1) 0),
            avail.getD i 0, avail.getD (i + pn - 1) 0)
        else some (bc, bs, be)
      else some (bc, bs, be) := by
  unfold considerCandidate
  by_cases h : avail.getD (i + pn - 1) 0 - avail.getD i 0 = pn - 1
  · rw [if_pos h]
  · rw [if_neg h]

theorem scanBest_fold_inv (ps : List PricedPeriod) (avail : List ℕ) (pn : ℕ) :
    ∀ m : ℕ,
      (((List.range m).foldl (considerCandidate ps avail pn) none = none) →
        ∀ pos, pos < m → ¬(avail.getD (pos + pn - 1) 0 - avail.getD pos 0 = pn - 1)) ∧
      ∀ c s e, (List.range m).foldl (considerCandidate ps avail pn) none = some (c, s, e) →
        ∃ pos₀, pos₀ < m ∧ (avail.getD (pos₀ + pn - 1) 0 - avail.getD pos₀ 0 = pn - 1) ∧
          s = avail.getD pos₀ 0 ∧ e = avail.getD (pos₀ + pn - 1) 0 ∧ c = blockCost ps s e ∧
          ∀ pos, pos < m → avail.getD (pos + pn - 1) 0 - avail.getD pos 0 = pn - 1 →
            c ≤ blockCost ps (avail.getD pos 0) (avail.getD (pos + pn - 1) 0) ∧
              (blockCost ps (avail.getD pos 0) (avail.getD (pos + pn - 1) 0) = c → pos₀ ≤ pos) := by
  intro m
  induction m with
  | zero =>
    constructor
    · intro _ pos hpos
      omega
    · intro c s e heq
      simp [List.range_zero] at heq
  | succ m ih =>
    simp only [List.range_succ, List.foldl_append, List.foldl_cons, List.foldl_nil]
    cases hprev : (List.range m).foldl (considerCandidate ps avail pn) none with
    | none =>
      rw [considerCandidate_none]
      by_cases hcond : avail.getD (m + pn - 1) 0 - avail.getD m 0 = pn - 1
      · rw [if_pos hcond]
        constructor
        · intro h
          exact absurd h (by simp)
        · intro c s e heq
          simp only [Option.some.injEq, Prod.mk.injEq] at heq
          obtain ⟨hc, hs, he⟩ := heq
          refine ⟨m, Nat.lt_succ_self m, hcond, hs.symm, he.symm, ?_, ?_⟩
          · rw [← hc, hs, he]
          · intro pos hpos hcpos
            rcases Nat.lt_succ_iff_lt_or_eq.mp hpos with h | h
            · exact absurd hcpos (ih.1 hprev pos h)
            · subst h
              exact ⟨le_of_eq (by rw [← hc, hs, he]), fun _ => le_refl _⟩
      · rw [if_neg hcond]
        constructor
        · intro _ pos hpos hcpos
          rcases Nat.lt_succ_iff_lt_or_eq.mp hpos with h | h
          · exact ih.1 hprev pos h hcpos
          · subst h
            exact hcond hcpos
        · intro c s e heq
          exact absurd heq (by simp)
    | some best =>
      obtain ⟨c', s', e'⟩ := best
      obtain ⟨pos₀, hpos₀m, hcand₀, hs', he', hc', hmin⟩ := ih.2 c' s' e' hprev
      rw [considerCandidate_some]
      by_cases hcond : avail.getD (m + pn - 1) 0 - avail.getD m 0 = pn - 1
      · rw [if_pos hcond]
        by_cases hlt : blockCost ps (avail.getD m 0) (avail.getD (m + pn - 1) 0) < c'
        · rw [if_pos hlt]
          constructor
          · intro h
            exact absurd h (by simp)
          · intro c s e heq
            simp only [Option.some.injEq, Prod.mk.injEq] at heq
            obtain ⟨hc, hs, he⟩ := heq
            refine ⟨m, Nat.lt_succ_self m, hcond, hs.symm, he.symm, ?_, ?_⟩
            · rw [← hc, hs, he]
            · intro pos hpos hcpos
              rcases Nat.lt_succ_iff_lt_or_eq.mp hpos with h | h
              · have h1 := (hmin pos h hcpos).1
                have h2 : c < c' := by rw [← hc]; exact hlt
                constructor
                · exact le_of_lt (lt_of_lt_of_le h2 h1)
                · intro habs
                  exfalso
                  rw [habs] at h1
                  exact absurd (lt_of_lt_of_le h2 h1) (lt_irrefl c)
              · subst h
                exact ⟨le_of_eq (by rw [← hc, hs, he]), fun _ => le_refl _⟩
        · rw [if_neg hlt]
          constructor
          · intro h
            exact absurd h (by simp)
          · intro c s e heq
            simp only [Option.some.injEq, Prod.mk.injEq] at heq
            obtain ⟨hc, hs, he⟩ := heq
            subst hc; subst hs; subst he
            refine ⟨pos₀, by omega, hcand₀, hs', he', hc', ?_⟩
            intro pos hpos hcpos
            rcases Nat.lt_succ_iff_lt_or_eq.mp hpos with h | h
            · exact hmin pos h hcpos
            · subst h
              exact ⟨le_of_not_lt hlt, fun _ => by omega⟩
      · rw [if_neg hcond]
        constructor
        · intro h
          exact absurd h (by simp)
        · intro c s e heq
          simp only [Option.some.injEq, Prod.mk.injEq] at heq
          obtain ⟨hc, hs, he⟩ := heq
          subst hc; subst hs; subst he
          refine ⟨pos₀, by omega, hcand₀, hs', he', hc', ?_⟩
          intro pos hpos hcpos
          rcases Nat.lt_succ_iff_lt_or_eq.mp hpos with h | h
          · exact hmin pos h hcpos
          · subst h
            exact absurd hcpos hcond

theorem selectRound_spec (ps : List PricedPeriod) (pn : ℕ) (c : ℚ) (s e : ℕ)
    (hpn : 0 < pn) (h : selectRound ps pn = some (c, s, e)) :
    isCandidate ps pn s e ∧ c = blockCost ps s e ∧
      ∀ s' e', isCandidate ps pn s' e' →
        c ≤ blockCost ps s' e' ∧ (blockCost ps s' e' = c → s ≤ s') := by
  simp only [selectRound] at h
  by_cases hlen : (availableIndices ps).length < pn
  · rw [if_pos hlen] at h
    exact absurd h (by simp)
  · rw [if_neg hlen] at h
    simp only [scanBest] at h
    obtain ⟨pos₀, hpos₀m, hcand₀, hs, he, hc, hmin⟩ :=
      (scanBest_fold_inv ps (availableIndices ps) pn
        ((availableIndices ps).length + 1 - pn)).2 c s e h
    have hplen : pn ≤ (availableIndices ps).length := le_of_not_lt hlen
    have hlast : pos₀ + pn - 1 < (availableIndices ps).length := by omega
    have hse : s ≤ e := by
      rw [hs, he]
      exact availableIndices_getD_le ps pos₀ (pos₀ + pn - 1) (by omega) hlast
    have heq : e = s + (pn - 1) := by omega
    have hall : ∀ i, s ≤ i → i ≤ e → i ∈ availableIndices ps := by
      intro i hsi hie
      have hj : i - s ≤ pn - 1 := by omega
      have hjlen : pos₀ + (i - s) < (availableIndices ps).length := by omega
      have hlow : s + (i - s) ≤ (availableIndices ps).getD (pos₀ + (i - s)) 0 := by
        have := availableIndices_getD_gap ps pos₀ (pos₀ + (i - s)) (by omega) hjlen
        have harith : pos₀ + (i - s) - pos₀ = i - s := by omega
        rw [harith] at this
        omega
      have hhigh : (availableIndices ps).getD (pos₀ + (i - s)) 0 + (pn - 1 - (i - s)) ≤ e := by
        have := availableIndices_getD_gap ps (pos₀ + (i - s)) (pos₀ + pn - 1) (by omega) hlast
        have harith : pos₀ + pn - 1 - (pos₀ + (i - s)) = pn - 1 - (i - s) := by omega
        rw [harith] at this
        omega
      have hexact : (availableIndices ps).getD (pos₀ + (i - s)) 0 = i := by omega
      rw [← hexact]
      exact availableIndices_getD_mem ps (pos₀ + (i - s)) hjlen
    have helen : e < ps.length := by
      have hmem : e ∈ availableIndices ps := hall e hse (le_refl e)
      exact ((mem_availableIndices ps e).mp hmem).1
    refine ⟨⟨heq, helen, ?_⟩, hc, ?_⟩
    · intro i hie hsi
      exact ((mem_availableIndices ps i).mp (hall i hsi hie)).2
    · intro s' e' hc'
      obtain ⟨pos, hposlen, hposval⟩ := exists_pos_of_candidate ps pn s' e' hpn hc'
      obtain ⟨heq', helen', _⟩ := hc'
      have hs' : (availableIndices ps).getD pos 0 = s' := by
        have := hposval 0 hpn
        simpa using this
      have he' : (availableIndices ps).getD (pos + pn - 1) 0 = e' := by
        have hval := hposval (pn - 1) (by omega)
        have harith : pos + pn - 1 = pos + (pn - 1) := by omega
        rw [harith, hval]
        omega
      have hposm : pos < (availableIndices ps).length + 1 - pn := by omega
      have hcandpos : (availableIndices ps).getD (pos + pn - 1) 0 -
          (availableIndices ps).getD pos 0 = pn - 1 := by
        rw [hs', he']
        omega
      have hres := hmin pos hposm hcandpos
      rw [hs', he'] at hres
      refine ⟨hres.1, ?_⟩
      intro hbc
      have hpos₀pos : pos₀ ≤ pos := hres.2 hbc
      rw [hs, ← hs']
      exact availableIndices_getD_le ps pos₀ pos hpos₀pos (by omega)

/-! ### The outer greedy loop -/

theorem isCandidate_markUnavailable (ps : List PricedPeriod) (a b pn s e : ℕ)
    (h : isCandidate (markUnavailable ps a b) pn s e) : isCandidate ps pn s e := by
  obtain ⟨heq, hlen, hav⟩ := h
  rw [length_markUnavailable] at hlen
  refine ⟨heq, hlen, ?_⟩
  intro i hie hsi
  have hi : i < ps.length := by omega
  exact (available_of_markUnavailable ps a b i hi (hav i hie hsi)).2

theorem round_cost_mono (ps : List PricedPeriod) (pn : ℕ) (c c' : ℚ) (s e s' e' : ℕ)
    (hpn : 0 < pn) (h1 : selectRound ps pn = some (c, s, e))
    (h2 : selectRound (markUnavailable ps s e) pn = some (c', s', e')) : c ≤ c' := by
  obtain ⟨hcand', hc', _⟩ := selectRound_spec _ pn c' s' e' hpn h2
  have hcand : isCandidate ps pn s' e' := isCandidate_markUnavailable ps s e pn s' e' hcand'
  obtain ⟨_, _, hmin⟩ := selectRound_spec ps pn c s e hpn h1
  have hle := (hmin s' e' hcand).1
  rw [hc', blockCost_markUnavailable]
  exact hle

theorem selectLoop_head (ps : List PricedPeriod) (pn k n : ℕ) (slot : Slot)
    (rest : List Slot) (h : selectLoop ps pn k n = slot :: rest) :
    ∃ s e, selectRound ps pn = some (slot.totalCost, s, e) ∧
      rest = selectLoop (markUnavailable ps s e) pn (k + 1) (n - 1) := by
  cases n with
  | zero => simp [selectLoop] at h
  | succ n' =>
    cases hr : selectRound ps pn with
    | none => simp [selectLoop, hr] at h
    | some v =>
      obtain ⟨c, s, e⟩ := v
      simp only [selectLoop, hr] at h
      rw [List.cons.injEq] at h
      obtain ⟨h1, h2⟩ := h
      have hc : slot.totalCost = c := by rw [← h1]
      refine ⟨s, e, ?_, ?_⟩
      · rw [hc]
      · simpa using h2.symm

theorem selectLoop_chain (pn : ℕ) (hpn : 0 < pn) :
    ∀ (n : ℕ) (ps : List PricedPeriod) (k : ℕ),
      (selectLoop ps pn k n).Chain' fun a b => a.totalCost ≤ b.totalCost := by
  intro n
  induction n with
  | zero => intro ps k; simp [selectLoop]
  | succ n' ih =>
    intro ps k
    cases hr : selectRound ps pn with
    | none => simp [selectLoop, hr]
    | some v =>
      obtain ⟨c, s, e⟩ := v
      simp only [selectLoop, hr]
      rw [List.chain'_cons']
      constructor
      · intro y hy
        cases hrest : selectLoop (markUnavailable ps s e) pn (k + 1) n' with
        | nil => rw [hrest] at hy; simp at hy
        | cons y' t =>
          rw [hrest] at hy
          simp only [List.head?_cons, Option.mem_def, Option.some.injEq] at hy
          obtain ⟨s', e', hr', _⟩ := selectLoop_head _ _ _ _ _ _ hrest
          rw [← hy]
          exact round_cost_mono ps pn c y'.totalCost s e s' e' hpn hr hr'
      · exact ih (markUnavailable ps s e) (k + 1)

theorem selectLoop_rank (pn : ℕ) :
    ∀ (n : ℕ) (ps : List PricedPeriod) (k i : ℕ) (slot : Slot),
      (selectLoop ps pn k n)[i]? = some slot → slot.rank = k + i + 1 := by
  intro n
  induction n with
  | zero => intro ps k i slot h; simp [selectLoop] at h
  | succ n' ih =>
    intro ps k i slot h
    cases hr : selectRound ps pn with
    | none => simp [selectLoop, hr] at h
    | some v =>
      obtain ⟨c, s, e⟩ := v
      simp only [selectLoop, hr] at h
      cases i with
      | zero =>
        simp only [List.getElem?_cons_zero, Option.some.injEq] at h
        rw [← h]
      | succ i' =>
        rw [List.getElem?_cons_succ] at h
        have := ih (markUnavailable ps s e) (k + 1) i' slot h
        omega

theorem selectLoop_periods_from (pn : ℕ) (hpn : 0 < pn) :
    ∀ (n : ℕ) (ps : List PricedPeriod) (k : ℕ),
      ∀ slot ∈ selectLoop ps pn k n, ∀ p ∈ slot.periods,
        ∃ j, j < ps.length ∧ (ps.getD j default).available = true ∧
          p.timestamp = (ps.getD j default).timestamp := by
  intro n
  induction n with
  | zero => intro ps k slot h; simp [selectLoop] at h
  | succ n' ih =>
    intro ps k slot hslot p hp
    cases hr : selectRound ps pn with
    | none => simp [selectLoop, hr] at hslot
    | some v =>
      obtain ⟨c, s, e⟩ := v
      simp only [selectLoop, hr] at hslot
      rw [List.mem_cons] at hslot
      rcases hslot with hslot | hslot
      · subst hslot
        have hp' : p ∈ blockSlice ps s e := hp
        obtain ⟨j, hsj, hje, hjlen, hpj⟩ := mem_blockSlice ps s e p hp'
        obtain ⟨⟨_, _, hav⟩, _, _⟩ := selectRound_spec ps pn c s e hpn hr
        exact ⟨j, hjlen, hav j hje hsj, by rw [hpj]⟩
      · obtain ⟨j, hjlen, hjav, hjts⟩ := ih (markUnavailable ps s e) (k + 1) slot hslot p hp
        rw [length_markUnavailable] at hjlen
        have h2 := available_of_markUnavailable ps s e j hjlen hjav
        refine ⟨j, hjlen, h2.2, ?_⟩
        rw [hjts, timestamp_markUnavailable ps s e j hjlen]

theorem nodup_map_timestamp_getD_ne (ps : List PricedPeriod)
    (hnd : (ps.map fun p => p.timestamp).Nodup) (j j' : ℕ)
    (hj : j < ps.length) (hj' : j' < ps.length) (hne : j ≠ j') :
    (ps.getD j default).timestamp ≠ (ps.getD j' default).timestamp := by
  intro heq
  apply hne
  have hjm : j < (ps.map fun p => p.timestamp).length := by simpa using hj
  have hjm' : j' < (ps.map fun p => p.timestamp).length := by simpa using hj'
  have hget : (ps.map fun p => p.timestamp).get ⟨j, hjm⟩ =
      (ps.map fun p => p.timestamp).get ⟨j', hjm'⟩ := by
    simp only [List.get_eq_getElem, List.getElem_map]
    rw [← List.getD_eq_getElem ps default hj, ← List.getD_eq_getElem ps default hj']
    exact heq
  have := (List.Nodup.get_inj_iff hnd).mp hget
  exact Fin.val_eq_of_eq this

theorem selectLoop_disjoint (pn : ℕ) (hpn : 0 < pn) :
    ∀ (n : ℕ) (ps : List PricedPeriod) (k : ℕ),
      (ps.map fun p => p.timestamp).Nodup →
      (selectLoop ps pn k n).Pairwise fun a b =>
        ∀ p ∈ a.periods, ∀ q ∈ b.periods, p.timestamp ≠ q.timestamp := by
  intro n
  induction n with
  | zero => intro ps k _; simp [selectLoop]
  | succ n' ih =>
    intro ps k hnd
    cases hr : selectRound ps pn with
    | none => simp [selectLoop, hr]
    | some v =>
      obtain ⟨c, s, e⟩ := v
      simp only [selectLoop, hr]
      rw [List.pairwise_cons]
      have hndm : ((markUnavailable ps s e).map fun p => p.timestamp).Nodup := by
        rw [markUnavailable_map_timestamp]
        exact hnd
      constructor
      · intro y hy p hp q hq
        have hp' : p ∈ blockSlice ps s e := hp
        obtain ⟨j, hsj, hje, hjlen, hpj⟩ := mem_blockSlice ps s e p hp'
        obtain ⟨j', hj'len, hj'av, hj'ts⟩ :=
          selectLoop_periods_from pn hpn n' (markUnavailable ps s e) (k + 1) y hy q hq
        rw [length_markUnavailable] at hj'len
        have hout := (available_of_markUnavailable ps s e j' hj'len hj'av).1
        have hne : j ≠ j' := by
          intro hjj
          subst hjj
          exact hout ⟨hsj, hje⟩
        rw [hpj, hj'ts, timestamp_markUnavailable ps s e j' hj'len]
        exact nodup_map_timestamp_getD_ne ps hnd j j' hjlen hj'len hne
      · exact ih (markUnavailable ps s e) (k + 1) hndm

/-- With `hours * 4` a natural number `pn` (the 15-minute divisibility
contract of the callers), `periodsNeeded` computes to `pn`. -/
theorem periodsNeeded_eq (hours : ℚ) (pn : ℕ) (hh : hours * 4 = (pn : ℚ)) :
    (⌊hours * 4⌋).toNat = pn := by
  rw [hh, Int.floor_natCast, Int.toNat_natCast]

theorem findTopBestTimeSlots_eq (ps : List PricedPeriod) (hours : ℚ) (n pn : ℕ)
    (hh : hours * 4 = (pn : ℚ)) :
    findTopBestTimeSlots ps hours n =
      selectLoop (ps.map fun p => { p with available := true }) pn 0 n := by
  unfold findTopBestTimeSlots
  rw [periodsNeeded_eq hours pn hh]

/-! ### Claim theorems for the slot selector -/

/-- C2: for every input series (with the data-model invariant of unique
timestamps) and every choice of parameters satisfying the 15-minute
divisibility contract (`hours * 4 = periodsNeeded ≥ 1`), the slots returned
by `findTopBestTimeSlots` are pairwise disjoint: no period, identified by
its timestamp, belongs to two distinct returned slots. -/
theorem findTopBestTimeSlots_disjoint (ps : List PricedPeriod) (hours : ℚ) (n pn : ℕ)
    (hpn : 0 < pn) (hh : hours * 4 = (pn : ℚ))
    (hnd : (ps.map fun p => p.timestamp).Nodup) :
    (findTopBestTimeSlots ps hours n).Pairwise fun a b =>
      ∀ p ∈ a.periods, ∀ q ∈ b.periods, p.timestamp ≠ q.timestamp := by
  rw [findTopBestTimeSlots_eq ps hours n pn hh]
  apply selectLoop_disjoint pn hpn n _ 0
  rw [List.map_map]
  have hcomp : ((fun p => p.timestamp) ∘ fun p : PricedPeriod => { p with available := true }) =
      fun p : PricedPeriod => p.timestamp := funext fun p => rfl
  rw [hcomp]
  exact hnd

theorem findTopBestTimeSlots_disjoint_witness :
    0 < 1 ∧ (1 / 4 : ℚ) * 4 = ((1 : ℕ) : ℚ) ∧
      ((witnessSeries.map fun p => p.timestamp).Nodup) ∧
      (findTopBestTimeSlots witnessSeries (1 / 4) 2).Pairwise fun a b =>
        ∀ p ∈ a.periods, ∀ q ∈ b.periods, p.timestamp ≠ q.timestamp :=
  ⟨by decide, by norm_num, by decide,
    findTopBestTimeSlots_disjoint witnessSeries (1 / 4) 2 1 (by decide) (by norm_num) (by decide)⟩

/-- C3: under the same parameter contract, the returned slots are in
non-decreasing order of `totalCost` along the list, the `rank` field equals
the 1-based list position, and in particular the first (rank-1) slot has the
minimum `totalCost` among all returned slots. -/
theorem findTopBestTimeSlots_cost_ranked (ps : List PricedPeriod) (hours : ℚ) (n pn : ℕ)
    (hpn : 0 < pn) (hh : hours * 4 = (pn : ℚ)) :
    ((findTopBestTimeSlots ps hours n).Pairwise fun a b => a.totalCost ≤ b.totalCost) ∧
      (∀ i slot, (findTopBestTimeSlots ps hours n)[i]? = some slot → slot.rank = i + 1) ∧
      ∀ a ∈ (findTopBestTimeSlots ps hours n).head?, ∀ b ∈ findTopBestTimeSlots ps hours n,
        a.totalCost ≤ b.totalCost := by
  rw [findTopBestTimeSlots_eq ps hours n pn hh]
  have hchain := selectLoop_chain pn hpn n (ps.map fun p => { p with available := true }) 0
  have hpair := List.chain'_iff_pairwise.mp hchain
  refine ⟨hpair, ?_, ?_⟩
  · intro i slot h
    have := selectLoop_rank pn n (ps.map fun p => { p with available := true }) 0 i slot h
    omega
  · intro a ha b hb
    cases hl : selectLoop (ps.map fun p => { p with available := true }) pn 0 n with
    | nil => rw [hl] at ha; simp at ha
    | cons x t =>
      rw [hl] at ha hb hpair
      simp only [List.head?_cons, Option.mem_def, Option.some.injEq] at ha
      subst ha
      rw [List.mem_cons] at hb
      rcases hb with hb | hb
      · subst hb; exact le_refl _
      · exact (List.pairwise_cons.mp hpair).1 b hb

theorem findTopBestTimeSlots_cost_ranked_witness :
    0 < 2 ∧ (1 / 2 : ℚ) * 4 = ((2 : ℕ) : ℚ) ∧
      (((findTopBestTimeSlots witnessSeries (1 / 2) 2).Pairwise fun a b =>
          a.totalCost ≤ b.totalCost) ∧
        (∀ i slot, (findTopBestTimeSlots witnessSeries (1 / 2) 2)[i]? = some slot →
          slot.rank = i + 1) ∧
        ∀ a ∈ (findTopBestTimeSlots witnessSeries (1 / 2) 2).head?,
          ∀ b ∈ findTopBestTimeSlots witnessSeries (1 / 2) 2,
            a.totalCost ≤ b.totalCost) :=
  ⟨by decide, by norm_num,
    findTopBestTimeSlots_cost_ranked witnessSeries (1 / 2) 2 2 (by decide) (by norm_num)⟩

/-- C4: in every selection round (one invocation of `selectRound`, the body
of the greedy loop), the chosen block is a valid candidate — a run of
currently-available periods whose first and last original indices differ by
exactly `pn - 1` — with minimal all-in price sum over all valid candidates
of that round, and among equal-cost candidates it has the earliest start
(the scan compares with strict `<`, so the first window found wins). -/
theorem selectRound_min (ps : List PricedPeriod) (pn : ℕ) (c : ℚ) (s e : ℕ)
    (hpn : 0 < pn) (h : selectRound ps pn = some (c, s, e)) :
    isCandidate ps pn s e ∧ c = blockCost ps s e ∧
      ∀ s' e', isCandidate ps pn s' e' →
        c ≤ blockCost ps s' e' ∧ (blockCost ps s' e' = c → s ≤ s') :=
  selectRound_spec ps pn c s e hpn h

theorem selectRound_min_witness :
    0 < 1 ∧ selectRound witnessSeries 1 = some (1, 1, 1) ∧
      (isCandidate witnessSeries 1 1 1 ∧ (1 : ℚ) = blockCost witnessSeries 1 1 ∧
        ∀ s' e', isCandidate witnessSeries 1 s' e' →
          (1 : ℚ) ≤ blockCost witnessSeries s' e' ∧
            (blockCost witnessSeries s' e' = 1 → 1 ≤ s')) :=
  ⟨by decide,
    by norm_num [selectRound, scanBest, availableIndices, considerCandidate, blockCost,
      blockSlice, witnessSeries, mkPeriod, List.range_succ, List.foldl, List.filter],
    selectRound_min witnessSeries 1 1 1 1 (by decide)
      (by norm_num [selectRound, scanBest, availableIndices, considerCandidate, blockCost,
        blockSlice, witnessSeries, mkPeriod, List.range_succ, List.foldl, List.filter])⟩

/-- C10: `findTopBestTimeSlots` ignores the incoming `available` flags: its
working copy resets every flag to `true` before the first round, so two
inputs differing only in their `available` flags produce identical results,
and a period passed in with `available = false` is still eligible. -/
theorem findTopBestTimeSlots_ignores_incoming_available (ps : List PricedPeriod)
    (hours : ℚ) (n : ℕ) (f : PricedPeriod → Bool) :
    findTopBestTimeSlots (ps.map fun p => { p with available := f p }) hours n =
      findTopBestTimeSlots ps hours n := by
  unfold findTopBestTimeSlots
  rw [List.map_map]
  have hcomp : ((fun p : PricedPeriod => { p with available := true }) ∘
      fun p : PricedPeriod => { p with available := f p }) =
      fun p : PricedPeriod => { p with available := true } := funext fun p => rfl
  rw [hcomp]

/-! ### Claim theorems for the fee normalizer and the series builder -/

/-- C9: for all real inputs (negative fees included), `applyUserFees`
returns exactly `(basePrice + energyTax + gridFee) * (1 + vatPercent / 100)`;
it is a pure total function, so there are no side effects or failure modes. -/
theorem applyUserFees_spec (basePrice vatPercent energyTax gridFee : ℝ) :
    applyUserFees basePrice vatPercent energyTax gridFee =
      (basePrice + energyTax + gridFee) * (1 + vatPercent / 100) := by
  unfold applyUserFees
  ring

/-- C8: `parsePriceData` returns a series sorted ascending by timestamp that
is a permutation of the per-item image of the input (exactly one
`PricedPeriod` per input record, no drops, no duplicates, for any input
order), and a non-list input yields the empty series rather than a failure. -/
theorem parsePriceData_spec (dayTagOf : Int → String) (nowTime : Int)
    (l : List RawPricePeriod) (userFees : UserFees) :
    (parsePriceData dayTagOf nowTime (some l) userFees).Pairwise
        (fun a b => a.timestamp ≤ b.timestamp) ∧
      (parsePriceData dayTagOf nowTime (some l) userFees).Perm
        (l.map (toPricedPeriod dayTagOf nowTime userFees)) ∧
      parsePriceData dayTagOf nowTime none userFees = [] := by
  have htrans : ∀ a b c : PricedPeriod,
      decide (a.timestamp ≤ b.timestamp) → decide (b.timestamp ≤ c.timestamp) →
        decide (a.timestamp ≤ c.timestamp) := by
    intro a b c hab hbc
    simp only [decide_eq_true_eq] at hab hbc ⊢
    exact le_trans hab hbc
  have htotal : ∀ a b : PricedPeriod,
      decide (a.timestamp ≤ b.timestamp) || decide (b.timestamp ≤ a.timestamp) := by
    intro a b
    rcases le_total a.timestamp b.timestamp with h | h <;> simp [h]
  refine ⟨?_, ?_, rfl⟩
  · simp only [parsePriceData]
    by_cases hl : l.length = 0
    · rw [if_pos hl]
      exact List.Pairwise.nil
    · rw [if_neg hl]
      have hs := List.sorted_mergeSort htrans htotal
        (l.map (toPricedPeriod dayTagOf nowTime userFees))
      exact hs.imp fun h => by simpa using h
  · simp only [parsePriceData]
    by_cases hl : l.length = 0
    · rw [if_pos hl]
      have : l = [] := List.length_eq_zero.mp hl
      subst this
      simp
    · rw [if_neg hl]
      exact List.mergeSort_perm _ _

/-! ### Claim theorems for the retrying fetch -/

theorem fetchPricesFrom_all_fail (responses : ℕ → FetchResponse) (d : String) (n : ℕ) :
    ∀ (f attempt : ℕ), n = attempt + f → 0 < f →
      (∀ i, attempt ≤ i → i < n → (responses i).isFailure = true) →
      fetchPricesFrom responses d n attempt =
        { rawData := none
          status := "Failed to load prices for " ++ d ++ ". Network error."
          attemptsUsed := n
          delaysMs := (List.range' attempt (n - 1 - attempt)).map fun a => 2 ^ a * 1000 } := by
  intro f
  induction f with
  | zero =>
    intro attempt _ h0
    exact absurd h0 (lt_irrefl 0)
  | succ f' ih =>
    intro attempt hn _ hfail
    have hlt : attempt < n := by omega
    have hisfail := hfail attempt (le_refl attempt) hlt
    unfold fetchPricesFrom
    rw [dif_pos hlt]
    cases hresp : responses attempt with
    | notFound => rw [hresp] at hisfail; simp [FetchResponse.isFailure] at hisfail
    | ok raw => rw [hresp] at hisfail; simp [FetchResponse.isFailure] at hisfail
    | httpError st =>
      simp only [hresp]
      by_cases hlast : attempt = n - 1
      · rw [if_pos hlast]
        have hdel : n - 1 - attempt = 0 := by omega
        have hn1 : attempt + 1 = n := by omega
        rw [hdel, hn1]
        simp
      · rw [if_neg hlast]
        have hf' : 0 < f' := by omega
        have hrec := ih (attempt + 1) (by omega) hf'
          (fun i hi hin => hfail i (by omega) hin)
        rw [hrec]
        have hcnt : n - 1 - attempt = (n - 1 - (attempt + 1)) + 1 := by omega
        rw [hcnt, List.range'_succ, List.map_cons]
    | networkError =>
      simp only [hresp]
      by_cases hlast : attempt = n - 1
      · rw [if_pos hlast]
        have hdel : n - 1 - attempt = 0 := by omega
        have hn1 : attempt + 1 = n := by omega
        rw [hdel, hn1]
        simp
      · rw [if_neg hlast]
        have hf' : 0 < f' := by omega
        have hrec := ih (attempt + 1) (by omega) hf'
          (fun i hi hin => hfail i (by omega) hin)
        rw [hrec]
        have hcnt : n - 1 - attempt = (n - 1 - (attempt + 1)) + 1 := by omega
        rw [hcnt, List.range'_succ, List.map_cons]

/-- C5: a 404 on the first attempt resolves immediately — one attempt, no
backoff delay — to a no-data result whose status says the prices are not yet
released; when every attempt fails with a non-404 error, each failed attempt
`a` (except the last) waits `2 ^ a` seconds (`2 ^ a * 1000` ms), and after
`maxRetries` attempts (3 at the call sites) the call resolves — it does not
throw — to a no-data result with a human-readable network-failure status. -/
theorem fetchPrices_error_policy (r₁ r₂ : ℕ → FetchResponse) (d : String) (n : ℕ)
    (hn : 0 < n) (h404 : r₁ 0 = FetchResponse.notFound)
    (hfail : ∀ i, i < n → (r₂ i).isFailure = true) :
    fetchPrices r₁ d n =
        { rawData := none
          status := "Prices for " ++ d ++ " not yet released (404)."
          attemptsUsed := 1
          delaysMs := [] } ∧
      fetchPrices r₂ d n =
        { rawData := none
          status := "Failed to load prices for " ++ d ++ ". Network error."
          attemptsUsed := n
          delaysMs := (List.range (n - 1)).map fun a => 2 ^ a * 1000 } := by
  constructor
  · unfold fetchPrices
    unfold fetchPricesFrom
    rw [dif_pos hn]
    simp only [h404]
  · unfold fetchPrices
    rw [fetchPricesFrom_all_fail r₂ d n n 0 (by omega) hn (fun i _ hin => hfail i hin)]
    rw [List.range_eq_range', Nat.sub_zero]

theorem fetchPrices_error_policy_witness :
    0 < 3 ∧ alwaysNotFound 0 = FetchResponse.notFound ∧
      (fetchPrices alwaysNotFound "Oct 12" 3 =
          { rawData := none
            status := "Prices for " ++ "Oct 12" ++ " not yet released (404)."
            attemptsUsed := 1
            delaysMs := [] } ∧
        fetchPrices alwaysNetworkError "Oct 12" 3 =
          { rawData := none
            status := "Failed to load prices for " ++ "Oct 12" ++ ". Network error."
            attemptsUsed := 3
            delaysMs := (List.range (3 - 1)).map fun a => 2 ^ a * 1000 }) :=
  ⟨by decide, rfl,
    fetchPrices_error_policy alwaysNotFound alwaysNetworkError "Oct 12" 3 (by decide) rfl
      (fun i _ => rfl)⟩

/-! ### Claim theorems for the cached fetch pipeline -/

/-- C6: on a cache miss, `checkCacheAndFetchPrices` writes the cache entry
iff both the today fetch and the tomorrow fetch returned non-empty data;
otherwise the store is left unchanged, while the merged result is still a
permutation of whatever data the two days produced (the day that succeeded
is kept). -/
theorem checkCacheAndFetchPrices_caching_policy (cached : Option CacheEntry) (zone : String)
    (nowMs : Int) (tR tmR : FetchResult)
    (hmiss : cacheHit cached zone nowMs = false) :
    ((tR.rawData.getD [] ≠ [] ∧ tmR.rawData.getD [] ≠ []) →
        (checkCacheAndFetchPrices cached zone nowMs tR tmR).2 =
          some { dateFetched := utcDayNumber nowMs, zone := zone,
                 today := tR.rawData.getD [], tomorrow := tmR.rawData.getD [] }) ∧
      (¬(tR.rawData.getD [] ≠ [] ∧ tmR.rawData.getD [] ≠ []) →
        (checkCacheAndFetchPrices cached zone nowMs tR tmR).2 = cached) ∧
      (checkCacheAndFetchPrices cached zone nowMs tR tmR).1.allRawPrices.Perm
        (tR.rawData.getD [] ++ tmR.rawData.getD []) ∧
      (checkCacheAndFetchPrices cached zone nowMs tR tmR).1.isCached = false := by
  simp only [checkCacheAndFetchPrices, hmiss, Bool.false_eq_true, if_false]
  split_ifs with hcond
  · simp only [Bool.and_eq_true, decide_eq_true_eq] at hcond
    refine ⟨fun _ => rfl, fun habs => ?_, ?_, rfl⟩
    · exact absurd ⟨List.length_pos.mp hcond.1, List.length_pos.mp hcond.2⟩ habs
    · exact List.mergeSort_perm _ _
  · refine ⟨fun hne => ?_, fun _ => rfl, ?_, rfl⟩
    · exfalso
      apply hcond
      simp only [Bool.and_eq_true, decide_eq_true_eq]
      exact ⟨List.length_pos.mpr hne.1, List.length_pos.mpr hne.2⟩
    · exact List.mergeSort_perm _ _

theorem checkCacheAndFetchPrices_caching_policy_witness :
    cacheHit none "SE1" 0 = false ∧
      (((todayOkResult.rawData.getD [] ≠ [] ∧ tomorrow404Result.rawData.getD [] ≠ []) →
          (checkCacheAndFetchPrices none "SE1" 0 todayOkResult tomorrow404Result).2 =
            some { dateFetched := utcDayNumber 0, zone := "SE1",
                   today := todayOkResult.rawData.getD [],
                   tomorrow := tomorrow404Result.rawData.getD [] }) ∧
        (¬(todayOkResult.rawData.getD [] ≠ [] ∧ tomorrow404Result.rawData.getD [] ≠ []) →
          (checkCacheAndFetchPrices none "SE1" 0 todayOkResult tomorrow404Result).2 = none) ∧
        (checkCacheAndFetchPrices none "SE1" 0 todayOkResult
            tomorrow404Result).1.allRawPrices.Perm
          (todayOkResult.rawData.getD [] ++ tomorrow404Result.rawData.getD []) ∧
        (checkCacheAndFetchPrices none "SE1" 0 todayOkResult
            tomorrow404Result).1.isCached = false) :=
  ⟨rfl, checkCacheAndFetchPrices_caching_policy none "SE1" 0 todayOkResult
    tomorrow404Result rfl⟩

/-- C7 (amended): the cache check treats a stored entry as a hit iff the
stored zone equals the requested zone and the stored fetch-date equals the
current calendar date computed in UTC (`toISOString`), not the local
calendar date; on a miss a fresh fetch is performed and its merged data is
returned. -/
theorem checkCacheAndFetchPrices_hit_iff (cached : Option CacheEntry) (zone : String)
    (nowMs : Int) (tR tmR : FetchResult) :
    ((checkCacheAndFetchPrices cached zone nowMs tR tmR).1.isCached = true ↔
      ∃ c, cached = some c ∧ c.zone = zone ∧ c.dateFetched = utcDayNumber nowMs) ∧
      ((checkCacheAndFetchPrices cached zone nowMs tR tmR).1.isCached = false →
        (checkCacheAndFetchPrices cached zone nowMs tR tmR).1.allRawPrices.Perm
          (tR.rawData.getD [] ++ tmR.rawData.getD [])) := by
  have hiso : (checkCacheAndFetchPrices cached zone nowMs tR tmR).1.isCached =
      cacheHit cached zone nowMs := by
    by_cases hch : cacheHit cached zone nowMs = true
    · simp only [checkCacheAndFetchPrices, hch, if_true]
      cases cached with
      | none => simp [cacheHit] at hch
      | some c => rfl
    · rw [Bool.not_eq_true] at hch
      simp only [checkCacheAndFetchPrices, hch, Bool.false_eq_true, if_false]
      split_ifs <;> rfl
  have hhit : cacheHit cached zone nowMs = true ↔
      ∃ c, cached = some c ∧ c.zone = zone ∧ c.dateFetched = utcDayNumber nowMs := by
    cases cached with
    | none => simp [cacheHit]
    | some c => simp [cacheHit]
  constructor
  · rw [hiso]
    exact hhit
  · intro hfalse
    rw [hiso] at hfalse
    simp only [checkCacheAndFetchPrices, hfalse, Bool.false_eq_true, if_false]
    split_ifs <;> exact List.mergeSort_perm _ _

/-- C7 counterexample: an entry whose stored fetch-date equals the current
*local* calendar date (offset +120 minutes) and whose zone matches is
nevertheless treated as a miss, because the code compares against the UTC
date from `toISOString`. -/
theorem checkCache_local_date_counterexample :
    midnightCacheEntry.zone = "SE4" ∧
      midnightCacheEntry.dateFetched = localDayNumber lateEveningMs 120 ∧
      (checkCacheAndFetchPrices (some midnightCacheEntry) "SE4" lateEveningMs
        todayOkResult tomorrow404Result).1.isCached = false := by
  refine ⟨rfl, by decide, ?_⟩
  decide

theorem checkCacheAndFetchPrices_hit_iff_witness :
    ((checkCacheAndFetchPrices (some midnightCacheEntry) "SE4" lateEveningMs todayOkResult
        tomorrow404Result).1.isCached = true ↔
      ∃ c, some midnightCacheEntry = some c ∧ c.zone = "SE4" ∧
        c.dateFetched = utcDayNumber lateEveningMs) ∧
      ((checkCacheAndFetchPrices (some midnightCacheEntry) "SE4" lateEveningMs todayOkResult
          tomorrow404Result).1.isCached = false →
        (checkCacheAndFetchPrices (some midnightCacheEntry) "SE4" lateEveningMs todayOkResult
            tomorrow404Result).1.allRawPrices.Perm
          (todayOkResult.rawData.getD [] ++ tomorrow404Result.rawData.getD [])) :=
  checkCacheAndFetchPrices_hit_iff (some midnightCacheEntry) "SE4" lateEveningMs
    todayOkResult tomorrow404Result

/-! ### Claim theorem for the orchestrator filter -/

/-- C1 (code bug): the availability filter of `handleCalculate` is
short-circuited. `availablePrices = allPrices || allPrices.filter(...)`
always evaluates to `allPrices` because an array is truthy, so a period that
is in the past (and outside the requested 8–12 window) still reaches
`findTopBestTimeSlots`, while the intended filter — the dead right-hand
operand, embedded as `windowFilter` — would remove it. -/
theorem handleCalculate_filter_dead :
    availablePricesOf 120 [pastPeriodExample] 8 12 = [pastPeriodExample] ∧
      pastPeriodExample.isPast = true ∧
      windowFilter 120 [pastPeriodExample] 8 12 = [] := by
  refine ⟨rfl, rfl, ?_⟩
  decide
